import Mathlib

/-!
Verification of the cutting-stock layout search (cutting.py).

The grid is a rows x columns matrix of Int cells, 1 for a free cell and
-1 for an occupied cell, exactly as in the source.  Numpy slice reads and
slice writes clamp at the boundary, which the list-based operations below
reproduce.  Fallible operations (a numpy IndexError from an empty
np.where result, a scipy ValueError from an ill-shaped valid-mode
correlation) are modelled with Except.  The backtracking loop of
find_solution is driven by fuel that strictly exceeds the number of
iterations the search can make; running out of fuel is mapped to the
error case so that an .ok result always corresponds to a genuinely
finished run of the source loop.
-/

namespace Cutting

abbrev Grid := List (List Int)

/-- One article variant: the dict with keys id, cols, rows, gap, area. -/
structure Dim where
  id : Nat
  cols : Nat
  rows : Nat
  gap : Nat
  area : Nat
deriving DecidableEq, Repr

/-- One placement record: the dict with keys id, col, row, cols appended
to the coords list by make_step. -/
structure Coord where
  id : Nat
  col : Nat
  row : Nat
  cols : Nat
deriving DecidableEq, Repr

/-- One search state of find_solution: the dict with keys ids, coords,
page. -/
structure PState where
  ids : List Nat
  coords : List Coord
  page : Grid
deriving DecidableEq, Repr

/-- A combination together with its summed area, as built by add_area:
the dict with keys area and dimensions. -/
structure Layout where
  area : Nat
  dimensions : List Dim
deriving DecidableEq, Repr

/-- create_matrix: a 1-filled rows x columns matrix. -/
def create_matrix (rows columns : Nat) : Grid :=
  List.replicate rows (List.replicate columns 1)

/-- First index of a cell equal to 1 in one row, scanning left to right. -/
def findFreeCol (c : Nat) : List Int → Option Nat
  | [] => none
  | x :: xs => if x == 1 then some c else findFreeCol (c + 1) xs

def findFreeGo (r : Nat) : Grid → Option (Nat × Nat)
  | [] => none
  | line :: rest =>
    match findFreeCol 0 line with
    | some c => some (r, c)
    | none => findFreeGo (r + 1) rest

/-- find_empty_cel: coordinates of the first cell equal to 1 in row-major
order; none models the IndexError raised when np.where finds nothing. -/
def find_empty_cel (m : Grid) : Option (Nat × Nat) :=
  findFreeGo 0 m

/-- Number of cells equal to 1 in a list (np.count_nonzero(... == 1)). -/
def countFree (l : List Int) : Nat :=
  l.countP (· == 1)

/-- validate_step: the count of free cells in the (boundary-clamped)
slice matrix[row:row+rows, col:col+cols] equals rows * cols. -/
def validate_step (row col rows cols : Nat) (m : Grid) : Bool :=
  (((m.drop row).take rows).map
    (fun line => countFree ((line.drop col).take cols))).sum == rows * cols

/-- One row of the slice assignment matrix[.., col:col+cols] = -1; c is
the index of the head of the remaining list. -/
def updRow (col cols : Nat) : Nat → List Int → List Int
  | _, [] => []
  | c, x :: xs =>
    (if col ≤ c ∧ c < col + cols then -1 else x) :: updRow col cols (c + 1) xs

def updGo (row rows col cols : Nat) : Nat → Grid → Grid
  | _, [] => []
  | r, line :: rest =>
    (if row ≤ r ∧ r < row + rows then updRow col cols 0 line else line) ::
      updGo row rows col cols (r + 1) rest

/-- The slice assignment matrix[row:row+rows, col:col+cols] = -1, which
clamps at the grid boundary exactly like a numpy slice write. -/
def updRect (m : Grid) (row col rows cols : Nat) : Grid :=
  updGo row rows col cols 0 m

/-- validate_area: the summed area of the combination is at most the page
area columns * rows. -/
def validate_area (dimensions : List Dim) (columns rows : Nat) : Bool :=
  decide ((dimensions.map Dim.area).sum ≤ columns * rows)

/-- add_area: wrap a combination with the sum of its members' areas. -/
def add_area (dimensions : List Dim) : Layout :=
  ⟨(dimensions.map Dim.area).sum, dimensions⟩

/-- The body of make_step for the remaining list of candidate articles:
for each article, if its (rows+gap) x cols rectangle starting at the
first free cell of the parent page is entirely free, emit the child state
with the rectangle committed and the placement recorded.  The error case
models the IndexError of find_empty_cel on a grid with no free cell. -/
def make_step (parent : PState) (dims : List Dim) : Except Unit (List PState) :=
  match dims with
  | [] => .ok []
  | dim :: rest =>
    match find_empty_cel parent.page with
    | none => .error ()
    | some (row, column) =>
      match make_step parent rest with
      | .error e => .error e
      | .ok tail =>
        if validate_step row column (dim.rows + dim.gap) dim.cols parent.page then
          .ok (⟨parent.ids ++ [dim.id],
                parent.coords ++ [⟨dim.id, column, row, dim.cols⟩],
                updRect parent.page row column (dim.rows + dim.gap) dim.cols⟩ :: tail)
        else .ok tail

/-- One iteration of the while loop of find_solution, applied to the
popped state (variant), the remaining pending list (rest, the list after
ret.pop()) and the solutions collected so far: compute the still-unplaced
articles, record the variant as a solution when none remain, expand it,
and prepend the successors to the pending list. -/
def solve_iter (dimensions : List Dim) (variant : PState)
    (rest solutions : List PState) : Except Unit (List PState × List PState) :=
  match make_step variant (dimensions.filter (fun d => !(variant.ids.contains d.id))) with
  | .error e => .error e
  | .ok steps =>
    .ok (steps ++ rest,
      if (dimensions.filter (fun d => !(variant.ids.contains d.id))).isEmpty
      then solutions ++ [variant] else solutions)

/-- The while loop of find_solution: ret.pop() removes the last element
of the pending list and solve_iter prepends the successors.  Fuel always
strictly dominates the number of iterations (see the fuel bound in
find_solution), and exhausting it is mapped to the error case. -/
def solve_loop (dimensions : List Dim) : Nat → List PState → List PState →
    Except Unit (List PState)
  | 0, _, _ => .error ()
  | _ + 1, [], solutions => .ok solutions
  | fuel + 1, s :: ss, solutions =>
    match solve_iter dimensions ((s :: ss).getLast (List.cons_ne_nil s ss))
        ((s :: ss).dropLast) solutions with
    | .error e => .error e
    | .ok (ret', solutions') => solve_loop dimensions fuel ret' solutions'

/-- One root state of find_solution: the article committed at row 0,
col 0 with no fit check; the slice write clamps at the page boundary. -/
def seed (page : Grid) (dim : Dim) : PState :=
  ⟨[dim.id], [⟨dim.id, 0, 0, dim.cols⟩],
    updRect page 0 0 (dim.rows + dim.gap) dim.cols⟩

/-- find_solution: seed one root per article of the combination, then run
the stack loop to exhaustion, collecting every complete state. -/
def find_solution (layout : Layout) (rows columns : Nat) :
    Except Unit (List PState) :=
  let page := create_matrix rows columns
  let n := layout.dimensions.length
  solve_loop layout.dimensions ((n + 1) ^ (n + 1))
    (layout.dimensions.map (seed page)) []

/-- Sum of the Int entries of a clamped rectangular slice of the grid. -/
def sumRect (m : Grid) (row col rows cols : Nat) : Int :=
  (((m.drop row).take rows).map (fun line => ((line.drop col).take cols).sum)).sum

/-- Sum of every entry of the grid. -/
def gridSum (m : Grid) : Int :=
  (m.map List.sum).sum

/-- The row-major list of the a x b top-left positions of a valid-mode
correlation output. -/
def positions (a b : Nat) : List (Nat × Nat) :=
  (List.range a).flatMap (fun r => (List.range b).map (fun c => (r, c)))

/-- First top-left position, in row-major order, at which the h x w
all-ones footprint scores h * w against the grid, i.e. the first entry of
np.where(c == max_peak) for the valid-mode correlation c. -/
def firstMatch (m : Grid) (R C h w : Nat) : Option (Nat × Nat) :=
  (positions (R - h + 1) (C - w + 1)).find?
    (fun p => sumRect m p.1 p.2 h w == ((h * w : Nat) : Int))

/-- The loop of fast_verify over the area-sorted variants.  The scipy
valid-mode correlation requires one input to be at least as large as the
other in every dimension, else it raises (the error case).  When the page
dominates the footprint, the correlation scores are the rectangle sums at
every position; when the footprint strictly dominates the page, every
score is the total sum of the page and np.where starts at (0, 0). -/
def fv_loop (R C : Nat) : List Dim → Grid → Except Unit Bool
  | [], _ => .ok true
  | dim :: rest, page =>
    let h := dim.rows + dim.gap
    let w := dim.cols
    if h ≤ R ∧ w ≤ C then
      match firstMatch page R C h w with
      | none => .ok false
      | some (r, c) => fv_loop R C rest (updRect page r c h w)
    else if R ≤ h ∧ C ≤ w then
      if gridSum page == ((h * w : Nat) : Int) then
        fv_loop R C rest (updRect page 0 0 h w)
      else .ok false
    else .error ()

/-- reversed(sorted(dims, key=area)): a stable ascending sort by area,
then reversal, so ties end up in reversed input order. -/
def sortDim (dims : List Dim) : List Dim :=
  (List.insertionSort (fun a b => a.area ≤ b.area) dims).reverse

/-- fast_verify: greedy largest-first placement on a scratch page using
the valid-mode correlation to locate the first legal position. -/
def fast_verify (layout : Layout) (page_rows page_columns : Nat) :
    Except Unit Bool :=
  fv_loop page_rows page_columns (sortDim layout.dimensions)
    (create_matrix page_rows page_columns)

/-- The cell of the grid at row r, column c (0 outside the grid). -/
def matGet (m : Grid) (r c : Nat) : Int :=
  (m.getD r []).getD c 0

/-- The grid is a well-formed R x C matrix. -/
def pageWf (m : Grid) (R C : Nat) : Prop :=
  m.length = R ∧ ∀ line ∈ m, line.length = C

/-- Every cell of the grid is 1 or -1. -/
def gridVals (m : Grid) : Prop :=
  ∀ line ∈ m, ∀ x ∈ line, x = 1 ∨ x = -1

/-- The variant of the combination that carries a given article id (the
first one, which is unique when the ids are distinct). -/
def dimFor (dims : List Dim) (i : Nat) : Option Dim :=
  dims.find? (fun d => d.id == i)

/-- Cell (r, cc) lies in the footprint rectangle of a placement record:
(rows + gap) x cols cells anchored at the recorded (row, col), the
variant being identified by the record's article id. -/
def inRect (dims : List Dim) (c : Coord) (r cc : Nat) : Prop :=
  ∃ d, dimFor dims c.id = some d ∧
    c.row ≤ r ∧ r < c.row + (d.rows + d.gap) ∧
    c.col ≤ cc ∧ cc < c.col + d.cols

/-- The footprint rectangles of two placement records share no cell. -/
def RectDisj (dims : List Dim) (c1 c2 : Coord) : Prop :=
  ∀ r cc, ¬(inRect dims c1 r cc ∧ inRect dims c2 r cc)

/-- Concrete inputs: two articles, each a single row of two columns, on
a 2 x 3 page. -/
def dimA : Dim := ⟨1, 2, 1, 0, 2⟩

def dimB : Dim := ⟨2, 2, 1, 0, 2⟩

def layX : Layout := ⟨4, [dimA, dimB]⟩

/-- Concrete inputs: two articles, each one cell, on a 1 x 2 page
(scenario C of the spec). -/
def dimS : Dim := ⟨1, 1, 1, 0, 1⟩

def dimT : Dim := ⟨2, 1, 1, 0, 1⟩

def layC : Layout := ⟨2, [dimS, dimT]⟩

def seedS : PState := seed (create_matrix 1 2) dimS

def seedT : PState := seed (create_matrix 1 2) dimT

/-- The state reached from the dimT root after placing dimS. -/
def stTS : PState := ⟨[2, 1], [⟨2, 0, 0, 1⟩, ⟨1, 1, 0, 1⟩], [[-1, -1]]⟩

/-- The state reached from the dimS root after placing dimT. -/
def stST : PState := ⟨[1, 2], [⟨1, 0, 0, 1⟩, ⟨2, 1, 0, 1⟩], [[-1, -1]]⟩

/-- Concrete input: a single article of three rows and one column. -/
def dim37 : Dim := ⟨7, 1, 3, 0, 3⟩

def lay37 : Layout := ⟨3, [dim37]⟩

/-- Concrete input: a single article of two rows and two columns. -/
def dimBig : Dim := ⟨9, 2, 2, 0, 4⟩

def layBig : Layout := ⟨4, [dimBig]⟩

end Cutting

namespace Cutting

lemma solve_loop_succ_nil (dims : List Dim) (fuel : Nat) (sols : List PState) :
    solve_loop dims (fuel + 1) [] sols = .ok sols := rfl

lemma solve_loop_succ_cons (dims : List Dim) (fuel : Nat) (s : PState)
    (ss sols : List PState) :
    solve_loop dims (fuel + 1) (s :: ss) sols =
      match solve_iter dims ((s :: ss).getLast (List.cons_ne_nil s ss))
          ((s :: ss).dropLast) sols with
      | .error e => .error e
      | .ok (ret', sols') => solve_loop dims fuel ret' sols' := rfl

lemma find_solution_single (a : Nat) (d : Dim) (R C : Nat) :
    find_solution ⟨a, [d]⟩ R C = .ok [seed (create_matrix R C) d] := by
  have hfil : [d].filter (fun x => !([d.id].contains x.id)) = [] := by
    simp [List.contains, List.elem]
  show solve_loop [d] (3 + 1) [seed (create_matrix R C) d] [] = _
  rw [solve_loop_succ_cons]
  simp only [List.getLast_singleton, List.dropLast_single, solve_iter, seed, hfil,
    make_step, List.isEmpty_nil, if_true, List.nil_append, List.append_nil]
  exact solve_loop_succ_nil [d] 2 [seed (create_matrix R C) d]

/-- Claim C7: on a 1-row, 2-column page with two one-cell articles,
find_solution returns exactly two Solutions, one with article 1 at
column 0 and article 2 at column 1, and one the other way around. -/
theorem find_solution_scenario_two :
    find_solution layC 1 2 = .ok [stTS, stST] := rfl

/-- Claim C9: find_solution seeds each root by committing the variant at
row 0, col 0 without any fit check, so for a single article whose
footprint exceeds the page in some dimension it still returns a
non-empty Solution list placing the article at row 0, col 0. -/
theorem find_solution_oversized_root (a : Nat) (d : Dim) (R C : Nat)
    (_hbig : R < d.rows + d.gap ∨ C < d.cols) :
    find_solution ⟨a, [d]⟩ R C = .ok [seed (create_matrix R C) d] ∧
    (seed (create_matrix R C) d).coords = [⟨d.id, 0, 0, d.cols⟩] :=
  ⟨find_solution_single a d R C, rfl⟩

theorem find_solution_oversized_root_w :
    ((2 : Nat) < dim37.rows + dim37.gap ∨ (2 : Nat) < dim37.cols) ∧
    (find_solution ⟨3, [dim37]⟩ 2 2 = .ok [seed (create_matrix 2 2) dim37] ∧
     (seed (create_matrix 2 2) dim37).coords = [⟨dim37.id, 0, 0, dim37.cols⟩]) :=
  ⟨by decide, find_solution_oversized_root 3 dim37 2 2 (by decide)⟩

/-- Claim C1 counterexample: the combination of two 1 x 2 articles on a
2 x 3 page has correct area fields and distinct ids, fast_verify accepts
it (placing one article at (0,0) and the other at (1,0)), yet
find_solution returns no Solution at all: both roots commit their article
at (0,0), after which the first free cell is (0,2), where the remaining
two-column article does not fit. -/
theorem C1_counterexample :
    (dimA.area = dimA.cols * (dimA.rows + dimA.gap) ∧
     dimB.area = dimB.cols * (dimB.rows + dimB.gap) ∧
     dimA.id ≠ dimB.id) ∧
    fast_verify layX 2 3 = .ok true ∧
    find_solution layX 2 3 = .ok [] :=
  ⟨by decide, rfl, rfl⟩

/-- Claim C4 counterexample: in the first iteration of find_solution on
the scenario-C input, the expanded root (article 2 placed first) produces
exactly one successor, yet the next state taken from the pending list is
the other root, not that successor: successors are prepended while states
are popped from the opposite end. -/
theorem C4_counterexample :
    solve_iter [dimS, dimT] seedT [seedS] [] = .ok ([stTS, seedS], []) ∧
    make_step seedT
        ([dimS, dimT].filter (fun d => !(seedT.ids.contains d.id))) =
      .ok [stTS] ∧
    [stTS, seedS].getLast? = some seedS ∧
    seedS ∉ [stTS] :=
  ⟨rfl, rfl, rfl, by decide⟩

/-- Claim C4 (amended): the pending collection behaves as a queue, not a
stack: one loop iteration prepends the successors to the front of the
pending list while the next state is popped from the back, so whenever
other states remain pending, the next state taken is the oldest pending
state rather than a just-produced successor. -/
theorem solve_iter_prepends (dimensions : List Dim) (variant : PState)
    (rest solutions steps : List PState)
    (h : make_step variant
        (dimensions.filter (fun d => !(variant.ids.contains d.id))) = .ok steps) :
    solve_iter dimensions variant rest solutions =
      .ok (steps ++ rest,
        if (dimensions.filter (fun d => !(variant.ids.contains d.id))).isEmpty
        then solutions ++ [variant] else solutions) ∧
    (rest ≠ [] → (steps ++ rest).getLast? = rest.getLast?) := by
  constructor
  · unfold solve_iter
    rw [h]
  · intro hr
    exact List.getLast?_append_of_ne_nil steps hr

theorem solve_iter_prepends_w :
    (make_step seedT
        ([dimS, dimT].filter (fun d => !(seedT.ids.contains d.id))) = .ok [stTS]) ∧
    (solve_iter [dimS, dimT] seedT [seedS] [] =
        .ok ([stTS] ++ [seedS],
          if ([dimS, dimT].filter (fun d => !(seedT.ids.contains d.id))).isEmpty
          then [] ++ [seedT] else []) ∧
     ([seedS] ≠ [] → ([stTS] ++ [seedS]).getLast? = [seedS].getLast?)) :=
  ⟨rfl, solve_iter_prepends [dimS, dimT] seedT [seedS] [] [stTS] rfl⟩

/-- Claim C8 counterexample: validate_step answers an out-of-bounds
rectangle with a plain False, indistinguishable from a blocked in-bounds
rectangle: a 2 x 1 rectangle on a 1 x 1 all-free grid yields false (the
clamped slice has a single free cell, not 2), exactly as a 1 x 1
rectangle on an occupied cell does; no distinct error condition exists. -/
theorem C8_counterexample :
    validate_step 0 0 2 1 [[1]] = false ∧
    validate_step 0 0 1 1 [[-1]] = false :=
  ⟨rfl, rfl⟩

/-- Claim C10 counterexample: a single article whose footprint (2 x 2)
exceeds the 1 x 1 page in both dimensions makes fast_verify return False,
not raise: the valid-mode correlation is legal when one input dominates
the other in every dimension, and its single score (the page sum) cannot
reach the footprint cell count. -/
theorem C10_counterexample :
    ((1 : Nat) < dimBig.rows + dimBig.gap ∧ (1 : Nat) < dimBig.cols) ∧
    fast_verify layBig 1 1 = .ok false :=
  ⟨by decide, rfl⟩

/-- Claim C10 (amended): fast_verify aborts with an error (the scipy
ValueError) only when the footprint of the variant under examination is
neither dominated by the page in every dimension nor dominating it in
every dimension; in particular, when the first variant in descending
area order is such a variant, fast_verify errors instead of returning. -/
theorem fast_verify_head_incomparable (L : Layout) (R C : Nat)
    (d : Dim) (rest : List Dim)
    (hsort : sortDim L.dimensions = d :: rest)
    (h1 : ¬(d.rows + d.gap ≤ R ∧ d.cols ≤ C))
    (h2 : ¬(R ≤ d.rows + d.gap ∧ C ≤ d.cols)) :
    fast_verify L R C = .error () := by
  unfold fast_verify
  rw [hsort]
  unfold fv_loop
  simp only [if_neg h1, if_neg h2]

theorem fast_verify_head_incomparable_w :
    sortDim lay37.dimensions = dim37 :: [] ∧
    ¬(dim37.rows + dim37.gap ≤ 1 ∧ dim37.cols ≤ 2) ∧
    ¬(1 ≤ dim37.rows + dim37.gap ∧ 2 ≤ dim37.cols) ∧
    fast_verify lay37 1 2 = .error () :=
  ⟨rfl, by decide, by decide,
    fast_verify_head_incomparable lay37 1 2 dim37 [] rfl (by decide) (by decide)⟩

lemma updRow_getElem? (col cols : Nat) (l : List Int) : ∀ (c0 j : Nat),
    (updRow col cols c0 l)[j]? =
      (l[j]?).map (fun x => if col ≤ c0 + j ∧ c0 + j < col + cols then -1 else x) := by
  induction l with
  | nil => intro c0 j; simp [updRow]
  | cons x xs ih =>
    intro c0 j
    cases j with
    | zero => simp [updRow]
    | succ j =>
      have hadd : c0 + 1 + j = c0 + (j + 1) := by omega
      simp only [updRow, List.getElem?_cons_succ, ih (c0 + 1) j, hadd]

lemma updRow_length (col cols : Nat) (l : List Int) : ∀ (c0 : Nat),
    (updRow col cols c0 l).length = l.length := by
  induction l with
  | nil => intro c0; rfl
  | cons x xs ih => intro c0; simp [updRow, ih (c0 + 1)]

lemma updGo_getElem? (row rows col cols : Nat) (m : Grid) : ∀ (r0 j : Nat),
    (updGo row rows col cols r0 m)[j]? =
      (m[j]?).map (fun line =>
        if row ≤ r0 + j ∧ r0 + j < row + rows then updRow col cols 0 line else line) := by
  induction m with
  | nil => intro r0 j; simp [updGo]
  | cons line rest ih =>
    intro r0 j
    cases j with
    | zero => simp [updGo]
    | succ j =>
      have hadd : r0 + 1 + j = r0 + (j + 1) := by omega
      simp only [updGo, List.getElem?_cons_succ, ih (r0 + 1) j, hadd]

lemma updGo_length (row rows col cols : Nat) (m : Grid) : ∀ (r0 : Nat),
    (updGo row rows col cols r0 m).length = m.length := by
  induction m with
  | nil => intro r0; rfl
  | cons line rest ih => intro r0; simp [updGo, ih (r0 + 1)]

lemma updRect_length (m : Grid) (row col rows cols : Nat) :
    (updRect m row col rows cols).length = m.length :=
  updGo_length row rows col cols m 0

lemma pageWf_updRect {m : Grid} {R C : Nat} (row col rows cols : Nat)
    (hwf : pageWf m R C) : pageWf (updRect m row col rows cols) R C := by
  refine ⟨by rw [updRect_length]; exact hwf.1, ?_⟩
  intro line hline
  rcases List.mem_iff_getElem?.1 hline with ⟨j, hj⟩
  rw [updRect, updGo_getElem?] at hj
  cases hm : m[j]? with
  | none => rw [hm] at hj; simp at hj
  | some l0 =>
    rw [hm] at hj
    simp only [Option.map_some'] at hj
    have hl0 : l0 ∈ m := List.mem_iff_getElem?.2 ⟨j, hm⟩
    have hlen : l0.length = C := hwf.2 l0 hl0
    rcases hj with hj
    cases hj
    split
    · rw [updRow_length]; exact hlen
    · exact hlen

lemma gridVals_updRect {m : Grid} (row col rows cols : Nat)
    (hv : gridVals m) : gridVals (updRect m row col rows cols) := by
  intro line hline x hx
  rcases List.mem_iff_getElem?.1 hline with ⟨j, hj⟩
  rw [updRect, updGo_getElem?] at hj
  cases hm : m[j]? with
  | none => rw [hm] at hj; simp at hj
  | some l0 =>
    rw [hm] at hj
    simp only [Option.map_some'] at hj
    have hl0 : l0 ∈ m := List.mem_iff_getElem?.2 ⟨j, hm⟩
    cases hj
    split at hx
    · rcases List.mem_iff_getElem?.1 hx with ⟨k, hk⟩
      rw [updRow_getElem? col cols l0 0 k] at hk
      cases hk2 : l0[k]? with
      | none => rw [hk2] at hk; simp at hk
      | some y =>
        rw [hk2] at hk
        simp only [Option.map_some'] at hk
        cases hk
        split
        · right; rfl
        · exact hv l0 hl0 y (List.mem_iff_getElem?.2 ⟨k, hk2⟩)
    · exact hv l0 hl0 x hx

lemma gridVals_create (R C : Nat) : gridVals (create_matrix R C) := by
  intro line hline x hx
  have hrep : line = List.replicate C 1 :=
    List.eq_of_mem_replicate (by simpa [create_matrix] using hline)
  rw [hrep] at hx
  left
  exact List.eq_of_mem_replicate hx

lemma create_matrix_wf (R C : Nat) : pageWf (create_matrix R C) R C := by
  refine ⟨by simp [create_matrix], ?_⟩
  intro line hline
  rw [create_matrix] at hline
  rw [List.eq_of_mem_replicate hline]
  simp

lemma matGet_create {R C r c : Nat} (hr : r < R) (hc : c < C) :
    matGet (create_matrix R C) r c = 1 := by
  simp [matGet, create_matrix, List.getElem?_replicate, hr, hc]

lemma matGet_updRect {m : Grid} {R C : Nat} (row col rows cols r c : Nat)
    (hwf : pageWf m R C) (hr : r < R) (hc : c < C) :
    matGet (updRect m row col rows cols) r c =
      if row ≤ r ∧ r < row + rows ∧ col ≤ c ∧ c < col + cols then -1
      else matGet m r c := by
  have hrm : r < m.length := by rw [hwf.1]; exact hr
  have hm : m[r]? = some m[r] := List.getElem?_eq_getElem hrm
  have hlen : (m[r]).length = C := hwf.2 _ (List.getElem_mem hrm)
  have hcl : c < (m[r]).length := by rw [hlen]; exact hc
  have hl : (m[r])[c]? = some (m[r])[c] := List.getElem?_eq_getElem hcl
  simp only [matGet, List.getD_eq_getElem?_getD, updRect, updGo_getElem?, hm,
    Option.map_some', Nat.zero_add, Option.getD_some]
  by_cases h1 : row ≤ r ∧ r < row + rows
  · rw [if_pos h1, updRow_getElem?, hl]
    simp only [Option.map_some', Nat.zero_add, Option.getD_some]
    by_cases h2 : col ≤ c ∧ c < col + cols
    · rw [if_pos h2, if_pos ⟨h1.1, h1.2, h2.1, h2.2⟩]
    · rw [if_neg h2, if_neg (by tauto)]
  · rw [if_neg h1, if_neg (by tauto)]

lemma list_sum_le (l : List Nat) (b : Nat) (h : ∀ x ∈ l, x ≤ b) :
    l.sum ≤ l.length * b := by
  induction l with
  | nil => simp
  | cons x xs ih =>
    have hx := h x (List.mem_cons_self x xs)
    have hxs := ih (fun y hy => h y (List.mem_cons_of_mem x hy))
    simp only [List.sum_cons, List.length_cons]
    have : (xs.length + 1) * b = xs.length * b + b := by ring
    omega

lemma list_all_eq_of_sum (l : List Nat) (b : Nat) (hle : ∀ x ∈ l, x ≤ b)
    (hs : l.sum = l.length * b) : ∀ x ∈ l, x = b := by
  induction l with
  | nil => simp
  | cons x xs ih =>
    have hx := hle x (List.mem_cons_self x xs)
    have hles : ∀ y ∈ xs, y ≤ b := fun y hy => hle y (List.mem_cons_of_mem x hy)
    have hxs := list_sum_le xs b hles
    simp only [List.sum_cons, List.length_cons] at hs
    have hmul : (xs.length + 1) * b = xs.length * b + b := by ring
    have hxb : x = b := by omega
    have hsx : xs.sum = xs.length * b := by omega
    intro y hy
    rcases List.mem_cons.1 hy with hy | hy
    · rw [hy, hxb]
    · exact ih hles hsx y hy

lemma list_sum_const (l : List Nat) (b : Nat) (h : ∀ x ∈ l, x = b) :
    l.sum = l.length * b := by
  induction l with
  | nil => simp
  | cons x xs ih =>
    have hx := h x (List.mem_cons_self x xs)
    have hxs := ih (fun y hy => h y (List.mem_cons_of_mem x hy))
    simp only [List.sum_cons, List.length_cons]
    rw [hx, hxs]
    ring

lemma countFree_le (l : List Int) : countFree l ≤ l.length :=
  List.countP_le_length _

lemma countFree_eq_length_iff (l : List Int) :
    countFree l = l.length ↔ ∀ x ∈ l, x = 1 := by
  simp [countFree, List.countP_eq_length]

lemma mem_slice_iff (l : List Int) (col w : Nat) :
    (∀ x ∈ (l.drop col).take w, x = 1) ↔
      ∀ j, col ≤ j → j < col + w → j < l.length → l.getD j 0 = 1 := by
  constructor
  · intro h j h1 h2 h3
    have hk : j - col < w := by omega
    have heq : ((l.drop col).take w)[j - col]? = l[j]? := by
      rw [List.getElem?_take_of_lt hk, List.getElem?_drop]
      congr 1
      omega
    have hj : l[j]? = some l[j] := List.getElem?_eq_getElem h3
    have hmem : l[j] ∈ (l.drop col).take w :=
      List.mem_iff_getElem?.2 ⟨j - col, by rw [heq, hj]⟩
    have := h _ hmem
    simp [List.getD_eq_getElem?_getD, hj, this]
  · intro h x hx
    rcases List.mem_iff_getElem?.1 hx with ⟨k, hk⟩
    rw [List.getElem?_take] at hk
    split at hk
    · rw [List.getElem?_drop] at hk
      rcases List.getElem?_eq_some_iff.1 hk with ⟨hlt, hval⟩
      have := h (col + k) (by omega) (by omega) hlt
      rw [List.getD_eq_getElem?_getD, List.getElem?_eq_getElem hlt,
        Option.getD_some, hval] at this
      exact this
    · exact absurd hk (by simp)

lemma countFree_slice_iff (l : List Int) (col w C : Nat) (hlen : l.length = C) :
    countFree ((l.drop col).take w) = w ↔
      min w (C - col) = w ∧ ∀ x ∈ (l.drop col).take w, x = 1 := by
  have hsl : ((l.drop col).take w).length = min w (C - col) := by
    simp [List.length_take, hlen]
  constructor
  · intro h
    have h1 : countFree ((l.drop col).take w) ≤ min w (C - col) := by
      rw [← hsl]; exact countFree_le _
    have h2 : min w (C - col) ≤ w := Nat.min_le_left _ _
    have hmw : min w (C - col) = w := by omega
    refine ⟨hmw, (countFree_eq_length_iff _).1 ?_⟩
    rw [hsl, hmw, h]
  · rintro ⟨h1, h2⟩
    have := (countFree_eq_length_iff _).2 h2
    rw [hsl, h1] at this
    exact this

lemma validate_step_iff {m : Grid} {R C : Nat} (row col h w : Nat)
    (hwf : pageWf m R C) :
    validate_step row col h w m = true ↔
      ((row + h ≤ R ∧ col + w ≤ C ∧
        ∀ r c, row ≤ r → r < row + h → col ≤ c → c < col + w →
          matGet m r c = 1) ∨ h * w = 0) := by
  have hmlen : m.length = R := hwf.1
  have hL : ((m.drop row).take h).length = min h (R - row) := by
    simp [List.length_take, hmlen]
  have hmemL : ∀ line ∈ (m.drop row).take h, line.length = C := fun line hl =>
    hwf.2 line (List.drop_subset row m (List.take_subset h _ hl))
  have hble : ∀ x ∈ ((m.drop row).take h).map
      (fun line => countFree ((line.drop col).take w)), x ≤ min w (C - col) := by
    intro x hx
    rcases List.mem_map.1 hx with ⟨line, hline, hxeq⟩
    have : ((line.drop col).take w).length = min w (C - col) := by
      simp [List.length_take, hmemL line hline]
    rw [← hxeq, ← this]
    exact countFree_le _
  rw [validate_step, beq_iff_eq]
  constructor
  · intro hsum
    by_cases hz : h * w = 0
    · right; exact hz
    left
    have hpos : 0 < h ∧ 0 < w := by
      constructor
      · exact Nat.pos_of_ne_zero (fun e => hz (by rw [e]; ring))
      · exact Nat.pos_of_ne_zero (fun e => hz (by rw [e]; ring))
    have ha : min h (R - row) ≤ h := Nat.min_le_left _ _
    have hb : min w (C - col) ≤ w := Nat.min_le_left _ _
    have hlen2 : (((m.drop row).take h).map
        (fun line => countFree ((line.drop col).take w))).length = min h (R - row) := by
      rw [List.length_map, hL]
    have hsum_le := list_sum_le _ _ hble
    rw [hlen2] at hsum_le
    have hup : min h (R - row) * min w (C - col) ≤ h * w :=
      Nat.mul_le_mul ha hb
    have heqab : min h (R - row) * min w (C - col) = h * w := by omega
    have hbw : min w (C - col) = w := by
      have h1 : min h (R - row) * min w (C - col) ≤ h * min w (C - col) :=
        Nat.mul_le_mul_right _ ha
      have h2 : h * min w (C - col) ≤ h * w := Nat.mul_le_mul_left _ hb
      have : h * min w (C - col) = h * w := by omega
      exact Nat.eq_of_mul_eq_mul_left hpos.1 this
    have hah : min h (R - row) = h := by
      rw [hbw] at heqab
      exact Nat.eq_of_mul_eq_mul_right hpos.2 heqab
    refine ⟨by omega, by omega, ?_⟩
    have hall := list_all_eq_of_sum _ _ hble (by rw [hlen2, heqab]; exact hsum)
    intro r c hr1 hr2 hc1 hc2
    have hrR : r < R := by omega
    have hrm : r < m.length := by omega
    have hkh : r - row < h := by omega
    have heqidx : ((m.drop row).take h)[r - row]? = m[r]? := by
      rw [List.getElem?_take_of_lt hkh, List.getElem?_drop]
      congr 1
      omega
    have hm : m[r]? = some m[r] := List.getElem?_eq_getElem hrm
    have hmem : m[r] ∈ (m.drop row).take h :=
      List.mem_iff_getElem?.2 ⟨r - row, by rw [heqidx, hm]⟩
    have hcnt : countFree (((m[r]).drop col).take w) = w := by
      rw [hbw] at hall
      exact hall _ (List.mem_map.2 ⟨m[r], hmem, rfl⟩)
    have hlinelen : (m[r]).length = C := hmemL _ hmem
    have hfree := ((countFree_slice_iff _ col w C hlinelen).1 hcnt).2
    have hcell := (mem_slice_iff _ col w).1 hfree c hc1 hc2 (by omega)
    simp only [List.getD_eq_getElem?_getD] at hcell
    simp only [matGet, List.getD_eq_getElem?_getD, hm, Option.getD_some]
    exact hcell
  · intro hor
    rcases hor with ⟨hR, hC, hcells⟩ | hz
    · have hah : min h (R - row) = h := by omega
      have hbw : min w (C - col) = w := by omega
      have hall : ∀ x ∈ ((m.drop row).take h).map
          (fun line => countFree ((line.drop col).take w)), x = w := by
        intro x hx
        rcases List.mem_map.1 hx with ⟨line, hline, hxeq⟩
        rcases List.mem_iff_getElem?.1 hline with ⟨k, hk⟩
        have hkh : k < h := by
          by_contra hkh
          rw [List.getElem?_take] at hk
          rw [if_neg (by omega)] at hk
          simp at hk
        have heqidx : ((m.drop row).take h)[k]? = m[row + k]? := by
          rw [List.getElem?_take_of_lt hkh, List.getElem?_drop]
        rw [heqidx] at hk
        rcases List.getElem?_eq_some_iff.1 hk with ⟨hlt, hval⟩
        have hlinelen : line.length = C := hmemL line hline
        rw [← hxeq]
        apply (countFree_slice_iff _ col w C hlinelen).2
        refine ⟨hbw, (mem_slice_iff _ col w).2 ?_⟩
        intro j hj1 hj2 hj3
        have := hcells (row + k) j (by omega) (by omega) hj1 hj2
        simp only [matGet, List.getD_eq_getElem?_getD, List.getElem?_eq_getElem hlt,
          Option.getD_some, hval] at this
        rw [List.getD_eq_getElem?_getD]
        exact this
      have := list_sum_const _ _ hall
      rw [this, List.length_map, hL, hah]
    · rcases Nat.mul_eq_zero.1 hz with hh | hww
      · subst hh
        simp
      · subst hww
        have hall : ∀ x ∈ ((m.drop row).take h).map
            (fun line => countFree ((line.drop col).take 0)), x = 0 := by
          intro x hx
          rcases List.mem_map.1 hx with ⟨line, hline, hxeq⟩
          rw [← hxeq]
          simp [countFree]
        have := list_sum_const _ _ hall
        rw [this]
        simp

/-- Claim C8 (amended): over a well-formed R x C grid, validate_step
returns True iff either the rectangle is degenerate (zero cells) or it
lies entirely within the grid and every one of its cells is FREE; an
out-of-bounds rectangle with at least one cell yields a plain False (the
numpy slice clamps), never an error. -/
theorem validate_step_spec {m : Grid} {R C : Nat} (row col h w : Nat)
    (hwf : pageWf m R C) :
    validate_step row col h w m = true ↔
      ((row + h ≤ R ∧ col + w ≤ C ∧
        ∀ r c, row ≤ r → r < row + h → col ≤ c → c < col + w →
          matGet m r c = 1) ∨ h * w = 0) :=
  validate_step_iff row col h w hwf

theorem validate_step_spec_w :
    pageWf [[1]] 1 1 ∧
    (validate_step 0 0 2 1 [[1]] = true ↔
      ((0 + 2 ≤ 1 ∧ 0 + 1 ≤ 1 ∧
        ∀ r c, 0 ≤ r → r < 0 + 2 → 0 ≤ c → c < 0 + 1 →
          matGet [[1]] r c = 1) ∨ 2 * 1 = 0)) :=
  ⟨⟨rfl, by simp⟩, validate_step_spec 0 0 2 1 ⟨rfl, by simp⟩⟩

lemma make_step_nil (parent : PState) : make_step parent [] = .ok [] := rfl

lemma make_step_cons (parent : PState) (dim : Dim) (rest : List Dim) :
    make_step parent (dim :: rest) =
      match find_empty_cel parent.page with
      | none => .error ()
      | some (row, column) =>
        match make_step parent rest with
        | .error e => .error e
        | .ok tail =>
          if validate_step row column (dim.rows + dim.gap) dim.cols parent.page then
            .ok (⟨parent.ids ++ [dim.id],
                  parent.coords ++ [⟨dim.id, column, row, dim.cols⟩],
                  updRect parent.page row column (dim.rows + dim.gap) dim.cols⟩ :: tail)
          else .ok tail := rfl

lemma make_step_cons_none (parent : PState) (dim : Dim) (rest : List Dim)
    (hfe : find_empty_cel parent.page = none) :
    make_step parent (dim :: rest) = .error () := by
  rw [make_step_cons, hfe]

lemma make_step_cons_err (parent : PState) (dim : Dim) (rest : List Dim)
    (row col : Nat) (e : Unit)
    (hfe : find_empty_cel parent.page = some (row, col))
    (hms : make_step parent rest = .error e) :
    make_step parent (dim :: rest) = .error e := by
  rw [make_step_cons, hfe, hms]

lemma make_step_cons_ok (parent : PState) (dim : Dim) (rest : List Dim)
    (row col : Nat) (tail : List PState)
    (hfe : find_empty_cel parent.page = some (row, col))
    (hms : make_step parent rest = .ok tail) :
    make_step parent (dim :: rest) =
      if validate_step row col (dim.rows + dim.gap) dim.cols parent.page then
        .ok (⟨parent.ids ++ [dim.id],
              parent.coords ++ [⟨dim.id, col, row, dim.cols⟩],
              updRect parent.page row col (dim.rows + dim.gap) dim.cols⟩ :: tail)
      else .ok tail := by
  rw [make_step_cons, hfe, hms]

/-- Every successor produced by make_step extends the parent with one
article of the candidate list, committed at the first free cell of the
parent page after a successful validate_step. -/
lemma make_step_mem_spec (parent : PState) (l : List Dim) (res : List PState)
    (hok : make_step parent l = .ok res) :
    ∀ t ∈ res, ∃ dim, dim ∈ l ∧ ∃ row col,
      find_empty_cel parent.page = some (row, col) ∧
      validate_step row col (dim.rows + dim.gap) dim.cols parent.page = true ∧
      t = ⟨parent.ids ++ [dim.id], parent.coords ++ [⟨dim.id, col, row, dim.cols⟩],
           updRect parent.page row col (dim.rows + dim.gap) dim.cols⟩ := by
  induction l generalizing res with
  | nil =>
    rw [make_step_nil] at hok
    cases hok
    intro t ht
    simp at ht
  | cons dim rest ih =>
    cases hfe : find_empty_cel parent.page with
    | none =>
      rw [make_step_cons_none parent dim rest hfe] at hok
      cases hok
    | some rc =>
      obtain ⟨row, col⟩ := rc
      cases hms : make_step parent rest with
      | error e =>
        rw [make_step_cons_err parent dim rest row col e hfe hms] at hok
        cases hok
      | ok tail =>
        rw [make_step_cons_ok parent dim rest row col tail hfe hms] at hok
        by_cases hv : validate_step row col (dim.rows + dim.gap) dim.cols parent.page = true
        · rw [if_pos hv] at hok
          cases hok
          intro t ht
          rcases List.mem_cons.1 ht with ht | ht
          · exact ⟨dim, List.mem_cons_self _ _, row, col, rfl, hv, ht⟩
          · rcases ih tail hms t ht with ⟨d2, hd2, row2, col2, h1, h2, h3⟩
            exact ⟨d2, List.mem_cons_of_mem _ hd2, row2, col2,
              hfe.symm.trans h1, h2, h3⟩
        · rw [if_neg hv] at hok
          cases hok
          intro t ht
          rcases ih _ hms t ht with ⟨d2, hd2, row2, col2, h1, h2, h3⟩
          exact ⟨d2, List.mem_cons_of_mem _ hd2, row2, col2,
            hfe.symm.trans h1, h2, h3⟩

lemma solve_loop_zero (dims : List Dim) (ret sols : List PState) :
    solve_loop dims 0 ret sols = .error () := rfl

/-- Every state of an .ok run of the solver loop satisfies any property
that holds of the initial pending states, holds of the already-collected
solutions, and is preserved by expansion; moreover every collected
solution has no unplaced article left. -/
lemma solve_loop_sound (dims : List Dim) (P : PState → Prop)
    (hstep : ∀ parent, P parent → ∀ res,
      make_step parent (dims.filter (fun d => !(parent.ids.contains d.id))) = .ok res →
      ∀ t ∈ res, P t) :
    ∀ (fuel : Nat) (ret sols out : List PState),
      (∀ s ∈ ret, P s) →
      (∀ s ∈ sols, P s ∧ dims.filter (fun d => !(s.ids.contains d.id)) = []) →
      solve_loop dims fuel ret sols = .ok out →
      ∀ s ∈ out, P s ∧ dims.filter (fun d => !(s.ids.contains d.id)) = [] := by
  intro fuel
  induction fuel with
  | zero =>
    intro ret sols out _ _ hrun
    rw [solve_loop_zero] at hrun
    cases hrun
  | succ fuel ih =>
    intro ret sols out hret hsols hrun
    cases ret with
    | nil =>
      rw [solve_loop_succ_nil] at hrun
      cases hrun
      exact hsols
    | cons s ss =>
      rw [solve_loop_succ_cons] at hrun
      cases hit : solve_iter dims ((s :: ss).getLast (List.cons_ne_nil s ss))
          ((s :: ss).dropLast) sols with
      | error e =>
        rw [hit] at hrun
        cases hrun
      | ok pr =>
        obtain ⟨ret', sols'⟩ := pr
        rw [hit] at hrun
        have hvarP : P ((s :: ss).getLast (List.cons_ne_nil s ss)) :=
          hret _ (List.getLast_mem _)
        unfold solve_iter at hit
        cases hms : make_step ((s :: ss).getLast (List.cons_ne_nil s ss))
            (dims.filter (fun d =>
              !(((s :: ss).getLast (List.cons_ne_nil s ss)).ids.contains d.id))) with
        | error e =>
          rw [hms] at hit
          cases hit
        | ok steps =>
          rw [hms] at hit
          cases hit
          apply ih _ _ out ?_ ?_ hrun
          · intro t ht
            rcases List.mem_append.1 ht with ht | ht
            · exact hstep _ hvarP steps hms t ht
            · exact hret t (List.dropLast_subset _ ht)
          · intro t ht
            split at ht
            · rename_i hemp
              rcases List.mem_append.1 ht with ht | ht
              · exact hsols t ht
              · have hteq : t = (s :: ss).getLast (List.cons_ne_nil s ss) := by
                  simpa using ht
                subst hteq
                exact ⟨hvarP, List.isEmpty_iff.1 hemp⟩
            · exact hsols t ht

/-- Claim C6: on a combination with pairwise distinct article ids, every
Solution returned by find_solution places every article id of the
combination exactly once: its placed-id list counts each combination id
once and any other id zero times. -/
theorem find_solution_ids_exact (L : Layout) (R C : Nat)
    (_hnd : (L.dimensions.map Dim.id).Nodup)
    (sols : List PState) (hrun : find_solution L R C = .ok sols)
    (s : PState) (hs : s ∈ sols) :
    ∀ i, s.ids.count i = if i ∈ L.dimensions.map Dim.id then 1 else 0 := by
  have hstep : ∀ parent,
      (parent.ids.Nodup ∧ ∀ i ∈ parent.ids, i ∈ L.dimensions.map Dim.id) →
      ∀ res, make_step parent
        (L.dimensions.filter (fun d => !(parent.ids.contains d.id))) = .ok res →
      ∀ t ∈ res, t.ids.Nodup ∧ ∀ i ∈ t.ids, i ∈ L.dimensions.map Dim.id := by
    intro parent hP res hok t ht
    rcases make_step_mem_spec parent _ res hok t ht with
      ⟨dim, hdim, row, col, _, _, hteq⟩
    rcases List.mem_filter.1 hdim with ⟨hdmem, hdnot⟩
    have hnotin : dim.id ∉ parent.ids := by
      intro hcon
      rw [Bool.not_eq_true', ← Bool.not_eq_true] at hdnot
      exact hdnot (by simpa [List.contains, List.elem_iff] using hcon)
    subst hteq
    constructor
    · simpa [List.concat_eq_append] using (hP.1.concat hnotin)
    · intro i hi
      rcases List.mem_append.1 hi with hi | hi
      · exact hP.2 i hi
      · have : i = dim.id := by simpa using hi
        subst this
        exact List.mem_map.2 ⟨dim, hdmem, rfl⟩
  have hseeds : ∀ t ∈ L.dimensions.map (seed (create_matrix R C)),
      t.ids.Nodup ∧ ∀ i ∈ t.ids, i ∈ L.dimensions.map Dim.id := by
    intro t ht
    rcases List.mem_map.1 ht with ⟨d, hd, hteq⟩
    subst hteq
    exact ⟨List.nodup_singleton _, by
      intro i hi
      have : i = d.id := by simpa [seed] using hi
      subst this
      exact List.mem_map.2 ⟨d, hd, rfl⟩⟩
  have hmain := solve_loop_sound L.dimensions
    (fun s => s.ids.Nodup ∧ ∀ i ∈ s.ids, i ∈ L.dimensions.map Dim.id) hstep
    _ _ [] sols hseeds (by simp) hrun s hs
  obtain ⟨⟨hndids, hsub⟩, hcomp⟩ := hmain
  intro i
  by_cases hi : i ∈ L.dimensions.map Dim.id
  · rw [if_pos hi]
    rcases List.mem_map.1 hi with ⟨d, hd, hdid⟩
    have hnp := List.filter_eq_nil_iff.1 hcomp d hd
    rw [Bool.not_eq_true, Bool.not_eq_false'] at hnp
    have hmem : d.id ∈ s.ids := by
      simpa [List.contains, List.elem_iff] using hnp
    rw [← hdid]
    exact List.count_eq_one_of_mem hndids hmem
  · rw [if_neg hi]
    exact List.count_eq_zero.2 (fun hc => hi (hsub i hc))

lemma fv_loop_cons (R C : Nat) (dim : Dim) (rest : List Dim) (page : Grid) :
    fv_loop R C (dim :: rest) page =
      if dim.rows + dim.gap ≤ R ∧ dim.cols ≤ C then
        match firstMatch page R C (dim.rows + dim.gap) dim.cols with
        | none => .ok false
        | some (r, c) =>
          fv_loop R C rest (updRect page r c (dim.rows + dim.gap) dim.cols)
      else if R ≤ dim.rows + dim.gap ∧ C ≤ dim.cols then
        if gridSum page == (((dim.rows + dim.gap) * dim.cols : Nat) : Int) then
          fv_loop R C rest (updRect page 0 0 (dim.rows + dim.gap) dim.cols)
        else .ok false
      else .error () := rfl

lemma int_sum_le_mul (l : List Int) (b : Int) (h : ∀ x ∈ l, x ≤ b) :
    l.sum ≤ (l.length : Int) * b := by
  induction l with
  | nil => simp
  | cons x xs ih =>
    have hx := h x (List.mem_cons_self x xs)
    have hxs := ih (fun y hy => h y (List.mem_cons_of_mem x hy))
    simp only [List.sum_cons, List.length_cons]
    have hc : ((xs.length + 1 : Nat) : Int) * b = (xs.length : Int) * b + b := by
      push_cast
      ring
    rw [hc]
    omega

lemma gridSum_le {page : Grid} {R C : Nat} (hwf : pageWf page R C)
    (hv : gridVals page) : gridSum page ≤ (R : Int) * C := by
  have hrow : ∀ x ∈ page.map List.sum, x ≤ (C : Int) := by
    intro x hx
    rcases List.mem_map.1 hx with ⟨line, hline, hxeq⟩
    have hlen : line.length = C := hwf.2 line hline
    have := int_sum_le_mul line 1 (fun y hy => by
      rcases hv line hline y hy with h1 | h1 <;> omega)
    rw [hlen] at this
    rw [← hxeq]
    omega
  have := int_sum_le_mul (page.map List.sum) (C : Int) hrow
  rw [List.length_map, hwf.1] at this
  exact this

lemma fv_loop_fits (R C : Nat) (hR : 0 < R) (hC : 0 < C) :
    ∀ (l : List Dim) (page : Grid), pageWf page R C → gridVals page →
      fv_loop R C l page = .ok true →
      ∀ d ∈ l, d.rows + d.gap ≤ R ∧ d.cols ≤ C := by
  intro l
  induction l with
  | nil =>
    intro page _ _ _ d hd
    simp at hd
  | cons dim rest ih =>
    intro page hwf hv hrun d hd
    rw [fv_loop_cons] at hrun
    by_cases hcase1 : dim.rows + dim.gap ≤ R ∧ dim.cols ≤ C
    · rw [if_pos hcase1] at hrun
      cases hfm : firstMatch page R C (dim.rows + dim.gap) dim.cols with
      | none =>
        rw [hfm] at hrun
        simp at hrun
      | some rc =>
        obtain ⟨r, c⟩ := rc
        rw [hfm] at hrun
        rcases List.mem_cons.1 hd with hd | hd
        · subst hd
          exact hcase1
        · exact ih _ (pageWf_updRect r c (dim.rows + dim.gap) dim.cols hwf)
            (gridVals_updRect r c (dim.rows + dim.gap) dim.cols hv) hrun d hd
    · rw [if_neg hcase1] at hrun
      by_cases hcase2 : R ≤ dim.rows + dim.gap ∧ C ≤ dim.cols
      · rw [if_pos hcase2] at hrun
        by_cases hsum :
            (gridSum page == (((dim.rows + dim.gap) * dim.cols : Nat) : Int)) = true
        · exfalso
          have hle := gridSum_le hwf hv
          have heq : gridSum page = (((dim.rows + dim.gap) * dim.cols : Nat) : Int) :=
            beq_iff_eq.1 hsum
          have hnat : (dim.rows + dim.gap) * dim.cols ≤ R * C := by
            rw [heq] at hle
            exact_mod_cast hle
          have hge : R * C ≤ (dim.rows + dim.gap) * dim.cols :=
            Nat.mul_le_mul hcase2.1 hcase2.2
          have hprod : (dim.rows + dim.gap) * dim.cols = R * C := by omega
          have hwpos : 0 < dim.cols := by omega
          have h1 : R * C ≤ R * dim.cols := Nat.mul_le_mul_left R hcase2.2
          have h2 : R * dim.cols ≤ (dim.rows + dim.gap) * dim.cols :=
            Nat.mul_le_mul_right dim.cols hcase2.1
          have hRw : R * dim.cols = (dim.rows + dim.gap) * dim.cols := by omega
          have hhR : R = dim.rows + dim.gap :=
            Nat.eq_of_mul_eq_mul_right hwpos hRw
          have hRC : R * C = R * dim.cols := by omega
          have hCw : C = dim.cols := Nat.eq_of_mul_eq_mul_left hR hRC
          exact hcase1 ⟨by omega, by omega⟩
        · rw [if_neg hsum] at hrun
          simp at hrun
      · rw [if_neg hcase2] at hrun
        cases hrun

/-- Claim C1 (amended): on a non-degenerate page, if fast_verify accepts
a combination then every member's footprint fits within the page
(height+gap at most the page rows and width at most the page columns);
acceptance does not however guarantee that find_solution finds any
Solution (see the counterexample). -/
theorem fast_verify_fits (L : Layout) (R C : Nat) (hR : 0 < R) (hC : 0 < C)
    (hacc : fast_verify L R C = .ok true) :
    ∀ d ∈ L.dimensions, d.rows + d.gap ≤ R ∧ d.cols ≤ C := by
  intro d hd
  have hd2 : d ∈ sortDim L.dimensions := by
    rw [sortDim, List.mem_reverse]
    exact ((List.perm_insertionSort _ _).mem_iff).2 hd
  exact fv_loop_fits R C hR hC _ _ (create_matrix_wf R C) (gridVals_create R C)
    hacc d hd2

theorem fast_verify_fits_w :
    ((0 : Nat) < 1 ∧ (0 : Nat) < 1 ∧
     fast_verify ⟨1, [⟨1, 1, 1, 0, 1⟩]⟩ 1 1 = .ok true) ∧
    ∀ d ∈ (⟨1, [⟨1, 1, 1, 0, 1⟩]⟩ : Layout).dimensions,
      d.rows + d.gap ≤ 1 ∧ d.cols ≤ 1 :=
  ⟨⟨by decide, by decide, rfl⟩,
    fast_verify_fits ⟨1, [⟨1, 1, 1, 0, 1⟩]⟩ 1 1 (by decide) (by decide) rfl⟩

lemma dimFor_eq_of_nodup : ∀ (dims : List Dim), (dims.map Dim.id).Nodup →
    ∀ d ∈ dims, dimFor dims d.id = some d := by
  intro dims
  induction dims with
  | nil =>
    intro _ d hd
    simp at hd
  | cons e rest ih =>
    intro hnd d hd
    simp only [List.map_cons, List.nodup_cons] at hnd
    rcases List.mem_cons.1 hd with hd | hd
    · subst hd
      simp [dimFor]
    · have hne : e.id ≠ d.id := fun hcon => hnd.1 (hcon ▸ List.mem_map.2 ⟨d, hd, rfl⟩)
      unfold dimFor
      rw [List.find?_cons_of_neg _ (by simp [hne])]
      exact ih hnd.2 d hd

/-- Claim C5: on a combination whose variants all fit within the page
bounds (and whose article ids are distinct, which is what lets each
placement record be matched to its variant footprint), the committed
placement rectangles of every Solution returned by find_solution,
each of (height+gap) x width cells anchored at its recorded (row, col),
are pairwise disjoint as sets of grid cells. -/
theorem find_solution_disjoint (L : Layout) (R C : Nat)
    (hfit : ∀ d ∈ L.dimensions, d.rows + d.gap ≤ R ∧ d.cols ≤ C)
    (hnd : (L.dimensions.map Dim.id).Nodup)
    (sols : List PState) (hrun : find_solution L R C = .ok sols)
    (s : PState) (hs : s ∈ sols) :
    List.Pairwise (RectDisj L.dimensions) s.coords := by
  have hstep : ∀ parent,
      (pageWf parent.page R C ∧
       (∀ c ∈ parent.coords, ∃ d, d ∈ L.dimensions ∧
          dimFor L.dimensions c.id = some d ∧
          ∀ r cc, c.row ≤ r → r < c.row + (d.rows + d.gap) →
            c.col ≤ cc → cc < c.col + d.cols →
            r < R ∧ cc < C ∧ matGet parent.page r cc = -1) ∧
       List.Pairwise (RectDisj L.dimensions) parent.coords) →
      ∀ res, make_step parent
        (L.dimensions.filter (fun d => !(parent.ids.contains d.id))) = .ok res →
      ∀ t ∈ res,
      (pageWf t.page R C ∧
       (∀ c ∈ t.coords, ∃ d, d ∈ L.dimensions ∧
          dimFor L.dimensions c.id = some d ∧
          ∀ r cc, c.row ≤ r → r < c.row + (d.rows + d.gap) →
            c.col ≤ cc → cc < c.col + d.cols →
            r < R ∧ cc < C ∧ matGet t.page r cc = -1) ∧
       List.Pairwise (RectDisj L.dimensions) t.coords) := by
    intro parent hP res hok t ht
    obtain ⟨hwf, hplaced, hdisj⟩ := hP
    rcases make_step_mem_spec parent _ res hok t ht with
      ⟨dim, hdim, row, col, hfe, hv, hteq⟩
    rcases List.mem_filter.1 hdim with ⟨hdmem, _⟩
    subst hteq
    have hspec := (validate_step_spec row col (dim.rows + dim.gap) dim.cols hwf).1 hv
    have hnewb : ∀ r cc, row ≤ r → r < row + (dim.rows + dim.gap) →
        col ≤ cc → cc < col + dim.cols →
        r < R ∧ cc < C ∧ matGet parent.page r cc = 1 := by
      intro r cc h1 h2 h3 h4
      have hpos : 0 < dim.rows + dim.gap := by omega
      have hposw : 0 < dim.cols := by omega
      rcases hspec with ⟨hR2, hC2, hfree⟩ | hz
      · exact ⟨by omega, by omega, hfree r cc h1 h2 h3 h4⟩
      · exact absurd hz (by have := Nat.mul_pos hpos hposw; omega)
    refine ⟨pageWf_updRect row col (dim.rows + dim.gap) dim.cols hwf, ?_, ?_⟩
    · intro c hc
      rcases List.mem_append.1 hc with hc | hc
      · rcases hplaced c hc with ⟨d, hdmem2, hdf, hcells⟩
        refine ⟨d, hdmem2, hdf, ?_⟩
        intro r cc h1 h2 h3 h4
        obtain ⟨hrR, hccC, hval⟩ := hcells r cc h1 h2 h3 h4
        refine ⟨hrR, hccC, ?_⟩
        rw [matGet_updRect row col (dim.rows + dim.gap) dim.cols r cc hwf hrR hccC]
        split
        · rfl
        · exact hval
      · have hceq : c = ⟨dim.id, col, row, dim.cols⟩ := by simpa using hc
        subst hceq
        refine ⟨dim, hdmem, dimFor_eq_of_nodup _ hnd dim hdmem, ?_⟩
        intro r cc h1 h2 h3 h4
        obtain ⟨hrR, hccC, _⟩ := hnewb r cc h1 h2 h3 h4
        refine ⟨hrR, hccC, ?_⟩
        rw [matGet_updRect row col (dim.rows + dim.gap) dim.cols r cc hwf hrR hccC,
          if_pos ⟨h1, h2, h3, h4⟩]
    · rw [List.pairwise_append]
      refine ⟨hdisj, List.pairwise_singleton _ _, ?_⟩
      intro c1 hc1 c2 hc2
      have hc2eq : c2 = ⟨dim.id, col, row, dim.cols⟩ := by simpa using hc2
      subst hc2eq
      rintro r cc ⟨hin1, hin2⟩
      rcases hin1 with ⟨d1, hdf1, hb1, hb2, hb3, hb4⟩
      rcases hplaced c1 hc1 with ⟨d1b, _, hdf1b, hcells1⟩
      have hd1 : d1 = d1b := Option.some.inj (hdf1.symm.trans hdf1b)
      subst hd1
      obtain ⟨_, _, hocc⟩ := hcells1 r cc hb1 hb2 hb3 hb4
      rcases hin2 with ⟨d2, hdf2, hz1, hz2, hz3, hz4⟩
      have hd2 : d2 = dim :=
        Option.some.inj (hdf2.symm.trans (dimFor_eq_of_nodup _ hnd dim hdmem))
      subst hd2
      obtain ⟨_, _, hfreecell⟩ := hnewb r cc hz1 hz2 hz3 hz4
      rw [hocc] at hfreecell
      exact absurd hfreecell (by norm_num)
  have hseeds : ∀ t ∈ L.dimensions.map (seed (create_matrix R C)),
      (pageWf t.page R C ∧
       (∀ c ∈ t.coords, ∃ d, d ∈ L.dimensions ∧
          dimFor L.dimensions c.id = some d ∧
          ∀ r cc, c.row ≤ r → r < c.row + (d.rows + d.gap) →
            c.col ≤ cc → cc < c.col + d.cols →
            r < R ∧ cc < C ∧ matGet t.page r cc = -1) ∧
       List.Pairwise (RectDisj L.dimensions) t.coords) := by
    intro t ht
    rcases List.mem_map.1 ht with ⟨d, hd, hteq⟩
    subst hteq
    refine ⟨pageWf_updRect 0 0 (d.rows + d.gap) d.cols (create_matrix_wf R C),
      ?_, ?_⟩
    · intro c hc
      have hceq : c = ⟨d.id, 0, 0, d.cols⟩ := by simpa [seed] using hc
      subst hceq
      refine ⟨d, hd, dimFor_eq_of_nodup _ hnd d hd, ?_⟩
      intro r cc h1 h2 h3 h4
      have h2' : r < 0 + (d.rows + d.gap) := h2
      have h4' : cc < 0 + d.cols := h4
      have hrR : r < R := by have := (hfit d hd).1; omega
      have hccC : cc < C := by have := (hfit d hd).2; omega
      refine ⟨hrR, hccC, ?_⟩
      show matGet (updRect (create_matrix R C) 0 0 (d.rows + d.gap) d.cols) r cc = -1
      rw [matGet_updRect 0 0 (d.rows + d.gap) d.cols r cc (create_matrix_wf R C)
        hrR hccC, if_pos ⟨Nat.zero_le r, by omega, Nat.zero_le cc, by omega⟩]
    · show List.Pairwise (RectDisj L.dimensions) [⟨d.id, 0, 0, d.cols⟩]
      exact List.pairwise_singleton _ _
  have hmain := solve_loop_sound L.dimensions _ hstep _ _ [] sols hseeds
    (by simp) hrun s hs
  exact hmain.1.2.2

theorem find_solution_disjoint_w :
    ((∀ d ∈ layC.dimensions, d.rows + d.gap ≤ 1 ∧ d.cols ≤ 2) ∧
     (layC.dimensions.map Dim.id).Nodup ∧
     find_solution layC 1 2 = .ok [stTS, stST] ∧ stTS ∈ [stTS, stST]) ∧
    List.Pairwise (RectDisj layC.dimensions) stTS.coords :=
  ⟨⟨by decide, by decide, rfl, by decide⟩,
   find_solution_disjoint layC 1 2 (by decide) (by decide) [stTS, stST] rfl
     stTS (by decide)⟩

theorem find_solution_ids_exact_w :
    ((layC.dimensions.map Dim.id).Nodup ∧
     find_solution layC 1 2 = .ok [stTS, stST] ∧ stTS ∈ [stTS, stST]) ∧
    ∀ i, stTS.ids.count i = if i ∈ layC.dimensions.map Dim.id then 1 else 0 :=
  ⟨⟨by decide, rfl, by decide⟩,
    find_solution_ids_exact layC 1 2 (by decide) [stTS, stST] rfl stTS (by decide)⟩

end Cutting
